import Mathlib

/-!
# Verification of the Rust trading-engine order book

Shallow embedding of `src/matching_engine/orderbook.rs` and
`src/matching_engine/engine.rs`.

Modelling choices:
* `f64` prices and sizes are modelled as `ℚ`.  All concrete values in the
  claims (10, 25, 50, 99, …) are exactly representable in `f64`, and the
  only arithmetic the code performs on sizes is subtraction of such values,
  which is exact.
* The Rust casts `f64 as u64` truncate toward zero and saturate to
  `[0, 2^64 - 1]`; `f64ToU64` below models exactly that on `ℚ`.
* `HashMap<Price, Limit>` is modelled as a `List Limit`: the map's key is
  always `limit.price` (both are set from the same `Price::new(price)` in
  `add_order`), the iteration order of the map is unspecified and every
  consumer (`ask_limits` / `bid_limits`) sorts, so only the collection of
  limits is observable.  Lookup (`get_mut`) becomes lookup on the `price`
  field.  Likewise `HashMap<TradingPair, OrderBook>` becomes an association
  list.
* In `fill_market_order` the Rust code mutates the limits through the
  sorted `Vec<&mut Limit>`; the map afterwards holds the same keys with the
  updated limits.  The model stores the updated sorted list back as the
  side, which represents the same (unordered) map contents.
* Rust's `sort_by` is a stable comparison sort; it is modelled by the
  stable `List.insertionSort` with the relation "comparator does not return
  `Greater`".
* The `#[derive(PartialOrd)]` on `Price` compares the fields
  lexicographically in declaration order (`integral`, `fractional`,
  `scalar`), chaining the fields' `partial_cmp`; `Price.cmpOpt` models this
  chaining, with `u64PartialCmp` for the (total) `u64` comparison.
-/

/-- `enum BidOrAsk { Bid, Ask }`. -/
inductive BidOrAsk : Type
  | Bid : BidOrAsk
  | Ask : BidOrAsk
deriving DecidableEq

/-- `struct Price { integral: u64, fractional: u64, scalar: u64 }`. -/
structure Price : Type where
  integral : ℕ
  fractional : ℕ
  scalar : ℕ
deriving DecidableEq

/-- Truncation toward zero of a rational, as performed by `f64::trunc` /
the integral part of an `f64 as u64` cast. -/
def ratTrunc (q : ℚ) : ℤ := if 0 ≤ q then ⌊q⌋ else ⌈q⌉

/-- The Rust cast `f64 as u64`: truncate toward zero, saturate below at `0`
and above at `u64::MAX`. -/
def f64ToU64 (q : ℚ) : ℕ := min (ratTrunc q).toNat (2 ^ 64 - 1)

/-- `Price::new(price)`: `integral = price as u64`,
`fractional = (price.fract() * scalar as f64) as u64`, `scalar = 100000`,
where `price.fract() = price - price.trunc()`. -/
def Price.new (price : ℚ) : Price :=
  { integral := f64ToU64 price
    fractional := f64ToU64 ((price - (ratTrunc price : ℚ)) * 100000)
    scalar := 100000 }

/-- `u64`'s `partial_cmp`, which always returns `Some` of the total
comparison. -/
def u64PartialCmp (a b : ℕ) : Option Ordering :=
  some (if a < b then Ordering.lt else if a = b then Ordering.eq else Ordering.gt)

/-- Field chaining used by `#[derive(PartialOrd)]`: if the first field
compares `Some(Equal)`, move on to the next field, otherwise return the
first comparison. -/
def chainCmp (c next : Option Ordering) : Option Ordering :=
  match c with
  | some Ordering.eq => next
  | o => o

/-- The derived `Price::partial_cmp`: lexicographic on
`integral`, `fractional`, `scalar`. -/
def Price.cmpOpt (a b : Price) : Option Ordering :=
  chainCmp (u64PartialCmp a.integral b.integral)
    (chainCmp (u64PartialCmp a.fractional b.fractional)
      (u64PartialCmp a.scalar b.scalar))

/-- `Option::unwrap` on the comparator result, total on `some`; the
`none` branch (the Rust panic) is shown unreachable below. -/
def unwrapCmp (o : Option Ordering) : Ordering := o.getD Ordering.eq

/-- Strict order on price keys: the derived comparator answers `Less`. -/
def Price.ltKey (a b : Price) : Prop := Price.cmpOpt a b = some Ordering.lt

instance : DecidableEq Ordering := fun a b => by
  cases a <;> cases b <;> first | exact isTrue rfl | exact isFalse (by simp)

instance (a b : Price) : Decidable (Price.ltKey a b) := by
  unfold Price.ltKey; infer_instance

/-- `struct Order { size: f64, bid_or_ask: BidOrAsk }`. -/
structure Order : Type where
  size : ℚ
  bid_or_ask : BidOrAsk
deriving DecidableEq

/-- `Order::new`. -/
def Order.new (bid_or_ask : BidOrAsk) (size : ℚ) : Order :=
  { size := size, bid_or_ask := bid_or_ask }

/-- `Order::is_filled`: `self.size == 0.0`. -/
def Order.is_filled (o : Order) : Bool := o.size = 0

/-- `struct Limit { price: Price, orders: Vec<Order> }`. -/
structure Limit : Type where
  price : Price
  orders : List Order
deriving DecidableEq

/-- `Limit::new`. -/
def Limit.new (price : Price) : Limit := { price := price, orders := [] }

/-- `Limit::add_order`: push at the back of the vector. -/
def Limit.add_order (l : Limit) (order : Order) : Limit :=
  { l with orders := l.orders ++ [order] }

/-- `Limit::total_volume`: sum of the resting orders' sizes. -/
def Limit.total_volume (l : Limit) : ℚ := (l.orders.map Order.size).sum

/-- The loop body of `Limit::fill_order`: walk the resting orders from the
front; at each resting order, if `market_order.size >= limit_order.size`
consume the resting order entirely, otherwise shrink the resting order and
zero the market order; break as soon as the market order is filled.
Returns the updated resting orders and the updated market order. -/
def fillLoop : List Order → Order → List Order × Order
  | [], mo => ([], mo)
  | lo :: rest, mo =>
    let step : Order × Order :=
      if lo.size ≤ mo.size then
        ({ lo with size := 0 }, { mo with size := mo.size - lo.size })
      else
        ({ lo with size := lo.size - mo.size }, { mo with size := 0 })
    if step.2.is_filled then
      (step.1 :: rest, step.2)
    else
      let next := fillLoop rest step.2
      (step.1 :: next.1, next.2)

/-- `Limit::fill_order`. -/
def Limit.fill_order (l : Limit) (mo : Order) : Limit × Order :=
  let res := fillLoop l.orders mo
  ({ l with orders := res.1 }, res.2)

/-- `struct OrderBook { bids: HashMap<Price, Limit>, asks: HashMap<Price, Limit> }`,
each side modelled as the collection of its limits (see the header). -/
structure OrderBook : Type where
  bids : List Limit
  asks : List Limit
deriving DecidableEq

/-- `OrderBook::new`. -/
def OrderBook.new : OrderBook := { bids := [], asks := [] }

/-- Comparator relation for `ask_limits`:
`a.price.partial_cmp(&b.price).unwrap()` not `Greater` (ascending). -/
def askLe (a b : Limit) : Prop :=
  unwrapCmp (Price.cmpOpt a.price b.price) ≠ Ordering.gt

/-- Comparator relation for `bid_limits`:
`b.price.partial_cmp(&a.price).unwrap()` not `Greater` (descending). -/
def bidLe (a b : Limit) : Prop :=
  unwrapCmp (Price.cmpOpt b.price a.price) ≠ Ordering.gt

instance (a b : Limit) : Decidable (askLe a b) := by unfold askLe; infer_instance

instance (a b : Limit) : Decidable (bidLe a b) := by unfold bidLe; infer_instance

/-- `OrderBook::ask_limits`: all ask limits, sorted ascending by price
(stable sort, modelling `sort_by`). -/
def OrderBook.ask_limits (ob : OrderBook) : List Limit :=
  List.insertionSort askLe ob.asks

/-- `OrderBook::bid_limits`: all bid limits, sorted descending by price. -/
def OrderBook.bid_limits (ob : OrderBook) : List Limit :=
  List.insertionSort bidLe ob.bids

/-- The loop of `OrderBook::fill_market_order`: fill against each limit of
the sorted opposite side in turn, breaking once the market order is
filled.  Returns the updated limits and the updated market order. -/
def fillLimits : List Limit → Order → List Limit × Order
  | [], mo => ([], mo)
  | l :: rest, mo =>
    let res := l.fill_order mo
    if res.2.is_filled then
      (res.1 :: rest, res.2)
    else
      let next := fillLimits rest res.2
      (res.1 :: next.1, next.2)

/-- `OrderBook::fill_market_order`: a `Bid` consumes the asks best (lowest)
price first; an `Ask` consumes the bids best (highest) price first.  The
updated limits are stored back as the side's contents (the Rust code
mutates them in place through the sorted `Vec<&mut Limit>`). -/
def OrderBook.fill_market_order (ob : OrderBook) (mo : Order) : OrderBook × Order :=
  match mo.bid_or_ask with
  | BidOrAsk.Bid =>
    let res := fillLimits ob.ask_limits mo
    ({ ob with asks := res.1 }, res.2)
  | BidOrAsk.Ask =>
    let res := fillLimits ob.bid_limits mo
    ({ ob with bids := res.1 }, res.2)

/-- Lookup of `get_mut(&price)` on a side: the first limit whose price is
the key. -/
def findLimit : List Limit → Price → Option Limit
  | [], _ => none
  | l :: rest, p => if l.price = p then some l else findLimit rest p

/-- Update-or-insert on a side, as `get_mut` + mutate / `insert` do on the
`HashMap`. -/
def addToSide (side : List Limit) (p : Price) (order : Order) : List Limit :=
  match side with
  | [] => [(Limit.new p).add_order order]
  | l :: rest =>
    if l.price = p then l.add_order order :: rest
    else l :: addToSide rest p order

/-- `OrderBook::add_order`: keys the order's side by `Price::new(price)`;
appends to the existing limit there, or creates a fresh limit. -/
def OrderBook.add_order (ob : OrderBook) (price : ℚ) (order : Order) : OrderBook :=
  let p := Price.new price
  match order.bid_or_ask with
  | BidOrAsk.Bid => { ob with bids := addToSide ob.bids p order }
  | BidOrAsk.Ask => { ob with asks := addToSide ob.asks p order }

/-- `struct TradingPair { base: String, quote: String }`. -/
structure TradingPair : Type where
  base : String
  quote : String
deriving DecidableEq

/-- `TradingPair::to_string`: `format!("{}/{}", base, quote)`. -/
def TradingPair.to_string (p : TradingPair) : String := p.base ++ "/" ++ p.quote

/-- `struct MatchingEngine { orderbooks: HashMap<TradingPair, OrderBook> }`,
the map modelled as an association list. -/
structure MatchingEngine : Type where
  orderbooks : List (TradingPair × OrderBook)
deriving DecidableEq

/-- `MatchingEngine::new`. -/
def MatchingEngine.new : MatchingEngine := { orderbooks := [] }

/-- `HashMap::get_mut` on the engine's book map. -/
def getBook : List (TradingPair × OrderBook) → TradingPair → Option OrderBook
  | [], _ => none
  | (k, b) :: rest, p => if k = p then some b else getBook rest p

/-- `HashMap::insert` on the engine's book map: replace the value under an
existing key, or add the binding. -/
def insertBook : List (TradingPair × OrderBook) → TradingPair → OrderBook →
    List (TradingPair × OrderBook)
  | [], p, b => [(p, b)]
  | (k, b0) :: rest, p, b =>
    if k = p then (k, b) :: rest else (k, b0) :: insertBook rest p b

/-- `MatchingEngine::add_new_market`: insert a fresh empty book under the
pair, overwriting any existing book. -/
def MatchingEngine.add_new_market (e : MatchingEngine) (pair : TradingPair) :
    MatchingEngine :=
  { orderbooks := insertBook e.orderbooks pair OrderBook.new }

/-- Debug formatting (`{:?}`) of a Rust `String`: the text wrapped in
double quotes.  (Rust additionally escapes quotes and backslashes inside
the text; pairs in the claims contain neither.) -/
def debugStr (s : String) : String := "\"" ++ s ++ "\""

/-- `MatchingEngine::place_limit_order`: on a registered pair, delegate to
`OrderBook::add_order` and return `Ok(())`; otherwise return
`Err(format!("No market found for pair: {:?}", pair.to_string()))` and
leave the engine untouched. -/
def MatchingEngine.place_limit_order (e : MatchingEngine) (pair : TradingPair)
    (price : ℚ) (order : Order) : MatchingEngine × Except String Unit :=
  match getBook e.orderbooks pair with
  | some ob =>
    ({ orderbooks := insertBook e.orderbooks pair (ob.add_order price order) },
      Except.ok ())
  | none =>
    (e, Except.error ("No market found for pair: " ++ debugStr pair.to_string))

/-! ## Helper lemmas -/

theorem priceNew_natCast (n : ℕ) (h : n < 2 ^ 64) :
    Price.new (n : ℚ) = { integral := n, fractional := 0, scalar := 100000 } := by
  unfold Price.new f64ToU64 ratTrunc
  norm_num
  omega

/-- The level at price 100 in the cross-level scenario of the spec. -/
def limit100 : Limit := { price := Price.new 100, orders := [Order.new BidOrAsk.Ask 10] }

/-- The order book of the cross-level scenario: asks of size 10 resting at
prices 100, 200, 300 and 500, built through `add_order`. -/
def bookCross : OrderBook :=
  ((((OrderBook.new.add_order 100 (Order.new BidOrAsk.Ask 10)).add_order 200
        (Order.new BidOrAsk.Ask 10)).add_order 300
      (Order.new BidOrAsk.Ask 10)).add_order 500
    (Order.new BidOrAsk.Ask 10))

theorem bookCross_eq :
    bookCross =
      { bids := []
        asks :=
          [{ price := { integral := 100, fractional := 0, scalar := 100000 }
             orders := [Order.new BidOrAsk.Ask 10] },
           { price := { integral := 200, fractional := 0, scalar := 100000 }
             orders := [Order.new BidOrAsk.Ask 10] },
           { price := { integral := 300, fractional := 0, scalar := 100000 }
             orders := [Order.new BidOrAsk.Ask 10] },
           { price := { integral := 500, fractional := 0, scalar := 100000 }
             orders := [Order.new BidOrAsk.Ask 10] }] } := by
  have h100 : Price.new (100 : ℚ) = { integral := 100, fractional := 0, scalar := 100000 } := by
    have := priceNew_natCast 100 (by norm_num)
    simpa using this
  have h200 : Price.new (200 : ℚ) = { integral := 200, fractional := 0, scalar := 100000 } := by
    have := priceNew_natCast 200 (by norm_num)
    simpa using this
  have h300 : Price.new (300 : ℚ) = { integral := 300, fractional := 0, scalar := 100000 } := by
    have := priceNew_natCast 300 (by norm_num)
    simpa using this
  have h500 : Price.new (500 : ℚ) = { integral := 500, fractional := 0, scalar := 100000 } := by
    have := priceNew_natCast 500 (by norm_num)
    simpa using this
  simp [bookCross, OrderBook.new, OrderBook.add_order, addToSide, Order.new, Limit.new,
    Limit.add_order, h100, h200, h300, h500]

/-! ## C1 -/

/-- C1: with asks of size 10 resting at prices 100, 200, 300 and 500, a Bid
market order of size 25 zeroes the levels at 100 and 200, leaves 5 at 300,
leaves 500 untouched at 10, and is itself filled: levels are consumed
best-price-first (lowest ask first) across levels. -/
theorem fill_market_order_cross_levels :
    ((findLimit (bookCross.fill_market_order (Order.new BidOrAsk.Bid 25)).1.asks
        (Price.new 100)).map (fun l => l.orders.map Order.size) = some [0]) ∧
    ((findLimit (bookCross.fill_market_order (Order.new BidOrAsk.Bid 25)).1.asks
        (Price.new 200)).map (fun l => l.orders.map Order.size) = some [0]) ∧
    ((findLimit (bookCross.fill_market_order (Order.new BidOrAsk.Bid 25)).1.asks
        (Price.new 300)).map (fun l => l.orders.map Order.size) = some [5]) ∧
    ((findLimit (bookCross.fill_market_order (Order.new BidOrAsk.Bid 25)).1.asks
        (Price.new 500)).map (fun l => l.orders.map Order.size) = some [10]) ∧
    (bookCross.fill_market_order (Order.new BidOrAsk.Bid 25)).2.size = 0 ∧
    (bookCross.fill_market_order (Order.new BidOrAsk.Bid 25)).2.is_filled = true := by
  have h100 : Price.new (100 : ℚ) = { integral := 100, fractional := 0, scalar := 100000 } := by
    have := priceNew_natCast 100 (by norm_num)
    simpa using this
  have h200 : Price.new (200 : ℚ) = { integral := 200, fractional := 0, scalar := 100000 } := by
    have := priceNew_natCast 200 (by norm_num)
    simpa using this
  have h300 : Price.new (300 : ℚ) = { integral := 300, fractional := 0, scalar := 100000 } := by
    have := priceNew_natCast 300 (by norm_num)
    simpa using this
  have h500 : Price.new (500 : ℚ) = { integral := 500, fractional := 0, scalar := 100000 } := by
    have := priceNew_natCast 500 (by norm_num)
    simpa using this
  norm_num [bookCross_eq, h100, h200, h300, h500, OrderBook.fill_market_order,
    OrderBook.ask_limits, List.insertionSort, List.orderedInsert, askLe, unwrapCmp,
    Price.cmpOpt, chainCmp, u64PartialCmp, fillLimits, Limit.fill_order, fillLoop,
    Order.new, Order.is_filled, findLimit, Limit.new, Limit.add_order]

/-! ## C9 -/

/-- C9: the comparison of any two `Price` values always yields `Some`
ordering — the derived `PartialOrd` on the three `u64` fields is total —
so the `.unwrap()` inside the sort comparators of `ask_limits` and
`bid_limits` can never panic. -/
theorem price_cmp_never_none (a b : Price) :
    ∃ o : Ordering, Price.cmpOpt a b = some o := by
  unfold Price.cmpOpt chainCmp u64PartialCmp
  repeat' split
  all_goals exact ⟨_, rfl⟩

/-! ## C10 -/

theorem f64ToU64_nonpos (q : ℚ) (h : q ≤ 0) : f64ToU64 q = 0 := by
  unfold f64ToU64 ratTrunc
  by_cases h0 : 0 ≤ q
  · have hq : q = 0 := le_antisymm h h0
    subst hq
    simp
  · have hc : ⌈q⌉ ≤ 0 := Int.ceil_le.mpr (by exact_mod_cast h)
    simp [h0, Int.toNat_of_nonpos hc]

/-- C10: every negative input price collapses to the same key as price 0,
namely `(integral 0, fractional 0, scalar 100000)`: the `as u64` casts
saturate negative values to 0. -/
theorem priceNew_negative_collapses (p : ℚ) (hp : p < 0) :
    Price.new p = { integral := 0, fractional := 0, scalar := 100000 } ∧
    Price.new p = Price.new 0 := by
  have hz : Price.new (0 : ℚ) = { integral := 0, fractional := 0, scalar := 100000 } := by
    norm_num [Price.new, f64ToU64, ratTrunc]
  have htr : ratTrunc p = ⌈p⌉ := if_neg (not_le.mpr hp)
  have h1 : Price.new p = { integral := 0, fractional := 0, scalar := 100000 } := by
    unfold Price.new
    have hint : f64ToU64 p = 0 := f64ToU64_nonpos p hp.le
    have hfr : f64ToU64 ((p - (ratTrunc p : ℚ)) * 100000) = 0 := by
      apply f64ToU64_nonpos
      have h2 : p ≤ (⌈p⌉ : ℚ) := Int.le_ceil p
      rw [htr]
      nlinarith
    rw [hint, hfr]
  exact ⟨h1, h1.trans hz.symm⟩

theorem priceNew_negative_collapses_witness :
    Price.new (-1 : ℚ) = { integral := 0, fractional := 0, scalar := 100000 } ∧
    Price.new (-1 : ℚ) = Price.new 0 :=
  priceNew_negative_collapses (-1) (by norm_num)

/-! ## C7 -/

theorem priceNew_scaled (k : ℕ) (hk : k < 100000 * 2 ^ 64) :
    Price.new ((k : ℚ) / 100000) =
      { integral := k / 100000, fractional := k % 100000, scalar := 100000 } := by
  have h0 : (0 : ℚ) ≤ (k : ℚ) / 100000 := by positivity
  have hfl : ⌊(k : ℚ) / 100000⌋ = ((k / 100000 : ℕ) : ℤ) := by
    have h1 := Rat.floor_intCast_div_natCast (k : ℤ) 100000
    norm_num at h1
    rw [h1]
    omega
  have htr : ratTrunc ((k : ℚ) / 100000) = ((k / 100000 : ℕ) : ℤ) := by
    unfold ratTrunc
    rw [if_pos h0, hfl]
  have hintegral : f64ToU64 ((k : ℚ) / 100000) = k / 100000 := by
    unfold f64ToU64
    rw [htr, Int.toNat_natCast]
    omega
  have hsplit : (k : ℚ) = 100000 * ((k / 100000 : ℕ) : ℚ) + ((k % 100000 : ℕ) : ℚ) := by
    exact_mod_cast (Nat.div_add_mod k 100000).symm
  have harg : ((k : ℚ) / 100000 - (ratTrunc ((k : ℚ) / 100000) : ℚ)) * 100000
      = ((k % 100000 : ℕ) : ℚ) := by
    rw [htr, Int.cast_natCast]
    field_simp
    linarith [hsplit]
  have hfrac : f64ToU64 (((k : ℚ) / 100000 - (ratTrunc ((k : ℚ) / 100000) : ℚ)) * 100000)
      = k % 100000 := by
    rw [harg]
    unfold f64ToU64 ratTrunc
    rw [if_pos (by positivity), Int.floor_natCast, Int.toNat_natCast]
    omega
  unfold Price.new
  rw [hintegral, hfrac]

/-- C7: price-key construction is strictly monotone on non-negative prices
representable at the fixed scale of 100,000ths (and small enough not to
saturate the `u64` cast): for `k1 < k2`,
`Price::new(k1/100000) < Price::new(k2/100000)` under the derived
ordering, which compares `integral` first, then `fractional`. -/
theorem price_key_strict_mono (k1 k2 : ℕ) (h12 : k1 < k2) (h2 : k2 < 100000 * 2 ^ 64) :
    Price.ltKey (Price.new ((k1 : ℚ) / 100000)) (Price.new ((k2 : ℚ) / 100000)) := by
  rw [priceNew_scaled k1 (lt_trans h12 h2), priceNew_scaled k2 h2]
  unfold Price.ltKey Price.cmpOpt chainCmp u64PartialCmp
  have hcase : k1 / 100000 < k2 / 100000 ∨
      (k1 / 100000 = k2 / 100000 ∧ k1 % 100000 < k2 % 100000) := by omega
  rcases hcase with h | ⟨he, hm⟩
  · simp [h]
  · simp [he, hm, lt_irrefl]

theorem price_key_strict_mono_witness :
    Price.ltKey (Price.new (((12345 : ℕ) : ℚ) / 100000))
      (Price.new (((2000000 : ℕ) : ℚ) / 100000)) :=
  price_key_strict_mono 12345 2000000 (by norm_num) (by norm_num)

/-! ## C2 -/

/-- The price level of the FIFO scenario: two resting bids of size 50. -/
def limitFifo : Limit :=
  { price := Price.new 10
    orders := [Order.new BidOrAsk.Bid 50, Order.new BidOrAsk.Bid 50] }

/-- C2: on a level holding [A(size 50), B(size 50)] in insertion order, an
incoming order of size 99 leaves A with size 0 and B with size 1 and is
itself filled: consumption within a level is FIFO from head to tail. -/
theorem fill_order_fifo :
    ((limitFifo.fill_order (Order.new BidOrAsk.Ask 99)).1.orders.map Order.size = [0, 1]) ∧
    (limitFifo.fill_order (Order.new BidOrAsk.Ask 99)).2.is_filled = true := by
  norm_num [limitFifo, Limit.fill_order, fillLoop, Order.new, Order.is_filled]

/-! ## C5 -/

/-- C5: `place_limit_order` on a trading pair with no registered order book
fails with a message identifying the pair's display form and mutates no
state (the engine is returned unchanged); on a registered pair it delegates
to the book's `add_order` (the updated book replacing the old one under the
same key) and reports success. -/
theorem place_limit_order_routing (e : MatchingEngine) (pair : TradingPair)
    (price : ℚ) (order : Order) :
    (getBook e.orderbooks pair = none →
      e.place_limit_order pair price order =
        (e, Except.error ("No market found for pair: " ++ "\"" ++ pair.to_string ++ "\""))) ∧
    (∀ ob : OrderBook, getBook e.orderbooks pair = some ob →
      e.place_limit_order pair price order =
        ({ orderbooks := insertBook e.orderbooks pair (ob.add_order price order) },
          Except.ok ())) := by
  constructor
  · intro hnone
    unfold MatchingEngine.place_limit_order
    rw [hnone]
    rfl
  · intro ob hsome
    unfold MatchingEngine.place_limit_order
    rw [hsome]

theorem place_limit_order_routing_witness :
    MatchingEngine.new.place_limit_order { base := "ETH", quote := "USD" } 10
        (Order.new BidOrAsk.Bid 5) =
      (MatchingEngine.new,
        Except.error ("No market found for pair: " ++ "\"" ++
          TradingPair.to_string { base := "ETH", quote := "USD" } ++ "\"")) :=
  (place_limit_order_routing MatchingEngine.new { base := "ETH", quote := "USD" } 10
    (Order.new BidOrAsk.Bid 5)).1 rfl

/-! ## C8 -/

theorem getBook_insertBook (l : List (TradingPair × OrderBook)) (p : TradingPair)
    (b : OrderBook) : getBook (insertBook l p b) p = some b := by
  induction l with
  | nil => simp [insertBook, getBook]
  | cons hd tl ih =>
    obtain ⟨k, b0⟩ := hd
    unfold insertBook
    by_cases hk : k = p
    · simp [getBook, hk]
    · simp [getBook, hk, ih]

/-- C8: `add_new_market` on a pair installs a fresh empty order book under
that pair, overwriting whatever book (and hence whatever resting orders)
was registered there before: after the call, the book found for the pair
is `OrderBook::new`, which holds no bids and no asks. -/
theorem add_new_market_overwrites (e : MatchingEngine) (pair : TradingPair) :
    getBook (e.add_new_market pair).orderbooks pair = some OrderBook.new ∧
    OrderBook.new.bids = [] ∧ OrderBook.new.asks = [] := by
  refine ⟨?_, rfl, rfl⟩
  unfold MatchingEngine.add_new_market
  exact getBook_insertBook e.orderbooks pair OrderBook.new
/-! ## C6 -/

/-- Lexicographic strict order on the fields of `Price`, in declaration
order — what the derived comparator's `Less` answer means. -/
def priceLex (x y : Price) : Prop :=
  x.integral < y.integral ∨ (x.integral = y.integral ∧
    (x.fractional < y.fractional ∨ (x.fractional = y.fractional ∧ x.scalar < y.scalar)))

instance (x y : Price) : Decidable (priceLex x y) := by
  unfold priceLex; infer_instance

theorem cmpOpt_char (a b : Price) :
    Price.cmpOpt a b =
      some (if a.integral < b.integral then Ordering.lt
        else if b.integral < a.integral then Ordering.gt
        else if a.fractional < b.fractional then Ordering.lt
        else if b.fractional < a.fractional then Ordering.gt
        else if a.scalar < b.scalar then Ordering.lt
        else if b.scalar < a.scalar then Ordering.gt
        else Ordering.eq) := by
  unfold Price.cmpOpt chainCmp u64PartialCmp
  rcases Nat.lt_trichotomy a.integral b.integral with h1 | h1 | h1
  · simp [h1, Nat.ne_of_lt h1]
  · rcases Nat.lt_trichotomy a.fractional b.fractional with h2 | h2 | h2
    · simp [h1, h2, lt_irrefl, Nat.ne_of_lt h2]
    · rcases Nat.lt_trichotomy a.scalar b.scalar with h3 | h3 | h3
      · simp [h1, h2, h3, lt_irrefl, Nat.ne_of_lt h3]
      · simp [h1, h2, h3, lt_irrefl]
      · simp [h1, h2, h3, lt_irrefl, Nat.lt_asymm h3, Nat.ne_of_gt h3]
    · simp [h1, h2, lt_irrefl, Nat.lt_asymm h2, Nat.ne_of_gt h2]
  · simp [h1, Nat.lt_asymm h1, Nat.ne_of_gt h1]

theorem ltKey_iff (a b : Price) : Price.ltKey a b ↔ priceLex a b := by
  unfold Price.ltKey priceLex
  rw [cmpOpt_char]
  split_ifs <;> simp_all <;> omega

theorem askLe_iff (a b : Limit) : askLe a b ↔ ¬ priceLex b.price a.price := by
  unfold askLe unwrapCmp priceLex
  rw [cmpOpt_char]
  rw [Option.getD_some]
  split_ifs <;> simp_all <;> omega

theorem bidLe_iff (a b : Limit) : bidLe a b ↔ ¬ priceLex a.price b.price := by
  unfold bidLe unwrapCmp priceLex
  rw [cmpOpt_char]
  rw [Option.getD_some]
  split_ifs <;> simp_all <;> omega

instance : IsTotal Limit askLe :=
  ⟨by intro a b; rw [askLe_iff, askLe_iff]; unfold priceLex; omega⟩

instance : IsTrans Limit askLe :=
  ⟨by intro a b c hab hbc; rw [askLe_iff] at *; unfold priceLex at *; omega⟩

instance : IsTotal Limit bidLe :=
  ⟨by intro a b; rw [bidLe_iff, bidLe_iff]; unfold priceLex; omega⟩

instance : IsTrans Limit bidLe :=
  ⟨by intro a b c hab hbc; rw [bidLe_iff] at *; unfold priceLex at *; omega⟩

theorem lex_of_not_lex_of_ne {x y : Price} (h1 : ¬ priceLex y x) (h2 : x ≠ y) :
    priceLex x y := by
  have h3 : ¬ (x.integral = y.integral ∧ x.fractional = y.fractional ∧
      x.scalar = y.scalar) := by
    intro hc
    apply h2
    cases x
    cases y
    simp_all
  unfold priceLex at h1 ⊢
  omega

/-- C6: `ask_limits` returns all ask-side levels sorted strictly ascending
by price (best ask first) and `bid_limits` returns all bid-side levels
sorted strictly descending (best bid first), provided the side's prices
are distinct (as they are under the `HashMap` keying).  Each result is a
permutation of the stored side, freshly sorted from it. -/
theorem limits_sorted (ob : OrderBook)
    (hA : (ob.asks.map Limit.price).Nodup) (hB : (ob.bids.map Limit.price).Nodup) :
    List.Pairwise (fun a b : Limit => Price.ltKey a.price b.price) ob.ask_limits ∧
    ob.ask_limits.Perm ob.asks ∧
    List.Pairwise (fun a b : Limit => Price.ltKey b.price a.price) ob.bid_limits ∧
    ob.bid_limits.Perm ob.bids := by
  have hpa : ob.ask_limits.Perm ob.asks := List.perm_insertionSort askLe ob.asks
  have hpb : ob.bid_limits.Perm ob.bids := List.perm_insertionSort bidLe ob.bids
  have hsa : List.Pairwise askLe ob.ask_limits := List.sorted_insertionSort askLe ob.asks
  have hsb : List.Pairwise bidLe ob.bid_limits := List.sorted_insertionSort bidLe ob.bids
  have hna : List.Pairwise (fun a b : Limit => a.price ≠ b.price) ob.ask_limits := by
    have h1 : (ob.ask_limits.map Limit.price).Nodup :=
      ((hpa.map Limit.price).nodup_iff).mpr hA
    exact (List.pairwise_map).mp h1
  have hnb : List.Pairwise (fun a b : Limit => a.price ≠ b.price) ob.bid_limits := by
    have h1 : (ob.bid_limits.map Limit.price).Nodup :=
      ((hpb.map Limit.price).nodup_iff).mpr hB
    exact (List.pairwise_map).mp h1
  refine ⟨?_, hpa, ?_, hpb⟩
  · refine (hsa.and hna).imp ?_
    intro a b hab
    rw [askLe_iff] at hab
    exact (ltKey_iff _ _).mpr (lex_of_not_lex_of_ne hab.1 hab.2)
  · refine (hsb.and hnb).imp ?_
    intro a b hab
    rw [bidLe_iff] at hab
    exact (ltKey_iff _ _).mpr
      (lex_of_not_lex_of_ne hab.1 (fun hxy => hab.2 hxy.symm))

/-- A small two-sided book with distinct, deliberately unsorted prices. -/
def bookSortScenario : OrderBook :=
  { bids := [{ price := { integral := 3, fractional := 0, scalar := 100000 }, orders := [] },
             { price := { integral := 7, fractional := 0, scalar := 100000 }, orders := [] }]
    asks := [{ price := { integral := 9, fractional := 0, scalar := 100000 }, orders := [] },
             { price := { integral := 5, fractional := 0, scalar := 100000 }, orders := [] }] }

theorem limits_sorted_witness :
    List.Pairwise (fun a b : Limit => Price.ltKey a.price b.price)
      bookSortScenario.ask_limits ∧
    bookSortScenario.ask_limits.Perm bookSortScenario.asks ∧
    List.Pairwise (fun a b : Limit => Price.ltKey b.price a.price)
      bookSortScenario.bid_limits ∧
    bookSortScenario.bid_limits.Perm bookSortScenario.bids :=
  limits_sorted bookSortScenario (by decide) (by decide)
/-! ## C3 -/

theorem is_filled_iff (o : Order) : o.is_filled = true ↔ o.size = 0 := by
  unfold Order.is_filled
  exact decide_eq_true_iff

/-- One order evolving into another under the fill algorithm: the size
stays non-negative, never increases, the side is unchanged, and a filled
order stays filled. -/
def shrinkOrder (o o' : Order) : Prop :=
  0 ≤ o'.size ∧ o'.size ≤ o.size ∧ o'.bid_or_ask = o.bid_or_ask ∧
    (o.is_filled = true → o'.is_filled = true)

/-- A price level evolving under the fill algorithm: same price, and each
resting order (position by position — FIFO preserves positions) only
shrinks. -/
def shrinkLimit (l l' : Limit) : Prop :=
  l'.price = l.price ∧ List.Forall₂ shrinkOrder l.orders l'.orders

theorem shrinkOrder_of_basic {o o' : Order} (h1 : 0 ≤ o'.size)
    (h2 : o'.size ≤ o.size) (h3 : o'.bid_or_ask = o.bid_or_ask) :
    shrinkOrder o o' := by
  refine ⟨h1, h2, h3, ?_⟩
  intro hf
  rw [is_filled_iff] at hf ⊢
  have := hf ▸ h2
  linarith

theorem shrinkOrder_refl {o : Order} (h : 0 ≤ o.size) : shrinkOrder o o :=
  ⟨h, le_refl _, rfl, fun hf => hf⟩

theorem shrinkOrder_trans {a b c : Order} (h1 : shrinkOrder a b)
    (h2 : shrinkOrder b c) : shrinkOrder a c :=
  ⟨h2.1, le_trans h2.2.1 h1.2.1, h2.2.2.1.trans h1.2.2.1,
    fun hf => h2.2.2.2 (h1.2.2.2 hf)⟩

theorem fillLoop_shrink (os : List Order) (mo : Order) (hmo : 0 ≤ mo.size)
    (hos : ∀ o ∈ os, 0 ≤ o.size) :
    List.Forall₂ shrinkOrder os (fillLoop os mo).1 ∧
    shrinkOrder mo (fillLoop os mo).2 := by
  induction os generalizing mo with
  | nil =>
    exact ⟨List.Forall₂.nil, shrinkOrder_refl hmo⟩
  | cons lo rest ih =>
    have hlo : 0 ≤ lo.size := hos lo (List.mem_cons_self lo rest)
    have hrest : ∀ o ∈ rest, 0 ≤ o.size := fun o ho => hos o (List.mem_cons_of_mem lo ho)
    have hrefl : List.Forall₂ shrinkOrder rest rest :=
      (List.forall₂_same).mpr (fun o ho => shrinkOrder_refl (hrest o ho))
    by_cases h1 : lo.size ≤ mo.size
    · by_cases h2 : mo.size - lo.size = 0
      · have hres : fillLoop (lo :: rest) mo =
            ({ lo with size := 0 } :: rest, { mo with size := mo.size - lo.size }) := by
          simp [fillLoop, h1, Order.is_filled, h2]
        rw [hres]
        refine ⟨List.Forall₂.cons (shrinkOrder_of_basic (le_refl 0) hlo rfl) hrefl, ?_⟩
        exact shrinkOrder_of_basic (by simp [h2]) (by simp; linarith) rfl
      · have hres : fillLoop (lo :: rest) mo =
            (({ lo with size := 0 } : Order) ::
                (fillLoop rest { mo with size := mo.size - lo.size }).1,
              (fillLoop rest { mo with size := mo.size - lo.size }).2) := by
          simp [fillLoop, h1, Order.is_filled, h2]
        rw [hres]
        have hmo' : (0 : ℚ) ≤ mo.size - lo.size := by
          rcases lt_or_eq_of_le h1 with h | h
          · linarith
          · rw [h]; simp
        obtain ⟨hf2, hs2⟩ := ih { mo with size := mo.size - lo.size } hmo' hrest
        refine ⟨List.Forall₂.cons (shrinkOrder_of_basic (le_refl 0) hlo rfl) hf2, ?_⟩
        refine shrinkOrder_trans ?_ hs2
        exact shrinkOrder_of_basic hmo' (by simp; linarith) rfl
    · have hres : fillLoop (lo :: rest) mo =
          ({ lo with size := lo.size - mo.size } :: rest, { mo with size := 0 }) := by
        simp [fillLoop, h1, Order.is_filled]
      rw [hres]
      push_neg at h1
      constructor
      · refine List.Forall₂.cons ?_ hrefl
        exact shrinkOrder_of_basic (by simp; linarith) (by simp; linarith) rfl
      · exact shrinkOrder_of_basic (le_refl 0) hmo rfl

theorem fill_order_shrink (l : Limit) (mo : Order) (hmo : 0 ≤ mo.size)
    (hl : ∀ o ∈ l.orders, 0 ≤ o.size) :
    shrinkLimit l (l.fill_order mo).1 ∧ shrinkOrder mo (l.fill_order mo).2 := by
  obtain ⟨hf, hs⟩ := fillLoop_shrink l.orders mo hmo hl
  exact ⟨⟨rfl, hf⟩, hs⟩

theorem fillLimits_shrink (ls : List Limit) (mo : Order) (hmo : 0 ≤ mo.size)
    (hls : ∀ l ∈ ls, ∀ o ∈ l.orders, 0 ≤ o.size) :
    List.Forall₂ shrinkLimit ls (fillLimits ls mo).1 ∧
    shrinkOrder mo (fillLimits ls mo).2 := by
  induction ls generalizing mo with
  | nil => exact ⟨List.Forall₂.nil, shrinkOrder_refl hmo⟩
  | cons l rest ih =>
    have hl : ∀ o ∈ l.orders, 0 ≤ o.size := hls l (List.mem_cons_self l rest)
    have hrest : ∀ l' ∈ rest, ∀ o ∈ l'.orders, 0 ≤ o.size :=
      fun l' hl' => hls l' (List.mem_cons_of_mem l hl')
    obtain ⟨hfl, hso⟩ := fill_order_shrink l mo hmo hl
    have hrefl : List.Forall₂ shrinkLimit rest rest :=
      (List.forall₂_same).mpr
        (fun l' hl' => ⟨rfl, (List.forall₂_same).mpr
          (fun o ho => shrinkOrder_refl (hrest l' hl' o ho))⟩)
    by_cases h2 : (l.fill_order mo).2.is_filled = true
    · have hres : fillLimits (l :: rest) mo =
          ((l.fill_order mo).1 :: rest, (l.fill_order mo).2) := by
        simp [fillLimits, h2]
      rw [hres]
      exact ⟨List.Forall₂.cons hfl hrefl, hso⟩
    · have hres : fillLimits (l :: rest) mo =
          ((l.fill_order mo).1 :: (fillLimits rest (l.fill_order mo).2).1,
            (fillLimits rest (l.fill_order mo).2).2) := by
        simp [fillLimits, h2]
      rw [hres]
      obtain ⟨hf2, hs2⟩ := ih (l.fill_order mo).2 hso.1 hrest
      exact ⟨List.Forall₂.cons hfl hf2, shrinkOrder_trans hso hs2⟩

/-- All orders resting anywhere in the book. -/
def allOrders (ob : OrderBook) : List Order :=
  ((ob.bids ++ ob.asks).map Limit.orders).flatten

theorem addToSide_join_perm (s : List Limit) (p : Price) (o : Order) :
    ((addToSide s p o).map Limit.orders).flatten.Perm
      (o :: (s.map Limit.orders).flatten) := by
  induction s with
  | nil => simp [addToSide, Limit.new, Limit.add_order]
  | cons l rest ih =>
    unfold addToSide
    by_cases h : l.price = p
    · rw [if_pos h]
      simp only [List.map_cons, List.flatten_cons, Limit.add_order]
      have : (l.orders ++ [o]) ++ (rest.map Limit.orders).flatten =
          l.orders ++ o :: (rest.map Limit.orders).flatten := by
        rw [List.append_assoc]
        rfl
      rw [this]
      exact List.perm_middle
    · rw [if_neg h]
      simp only [List.map_cons, List.flatten_cons]
      exact (ih.append_left l.orders).trans List.perm_middle
/-- C3: sizes stay non-negative and never increase under the fill
algorithm, the only transition is Open (size > 0) to Filled (size == 0),
and a filled order stays filled; `add_order` never touches an existing
order (the orders after an insertion are exactly the old ones plus the new
one).  For `fill_market_order` the opposite side is traversed as the
sorted permutation `ask_limits` / `bid_limits` of the stored side, so the
shrinking is stated level by level along that permutation, and the same
side is returned untouched. -/
theorem order_size_monotone :
    (∀ (l : Limit) (mo : Order), 0 ≤ mo.size → (∀ o ∈ l.orders, 0 ≤ o.size) →
      shrinkLimit l (l.fill_order mo).1 ∧ shrinkOrder mo (l.fill_order mo).2) ∧
    (∀ (ob : OrderBook) (mo : Order), 0 ≤ mo.size →
      (∀ l ∈ ob.bids, ∀ o ∈ l.orders, 0 ≤ o.size) →
      (∀ l ∈ ob.asks, ∀ o ∈ l.orders, 0 ≤ o.size) →
      shrinkOrder mo (ob.fill_market_order mo).2 ∧
      (mo.bid_or_ask = BidOrAsk.Bid →
        (ob.fill_market_order mo).1.bids = ob.bids ∧
        List.Forall₂ shrinkLimit ob.ask_limits (ob.fill_market_order mo).1.asks) ∧
      (mo.bid_or_ask = BidOrAsk.Ask →
        (ob.fill_market_order mo).1.asks = ob.asks ∧
        List.Forall₂ shrinkLimit ob.bid_limits (ob.fill_market_order mo).1.bids)) ∧
    (∀ (ob : OrderBook) (price : ℚ) (order : Order),
      (allOrders (ob.add_order price order)).Perm (order :: allOrders ob)) := by
  refine ⟨fill_order_shrink, ?_, ?_⟩
  · intro ob mo hmo hb ha
    cases hside : mo.bid_or_ask
    · have hperm := List.perm_insertionSort askLe ob.asks
      have hnn : ∀ l ∈ ob.ask_limits, ∀ o ∈ l.orders, 0 ≤ o.size :=
        fun l hl => ha l (hperm.subset hl)
      obtain ⟨hf, hs⟩ := fillLimits_shrink ob.ask_limits mo hmo hnn
      refine ⟨?_, ?_, ?_⟩
      · simpa [OrderBook.fill_market_order, hside] using hs
      · intro _
        constructor
        · simp [OrderBook.fill_market_order, hside]
        · simpa [OrderBook.fill_market_order, hside] using hf
      · intro habs
        simp at habs
    · have hperm := List.perm_insertionSort bidLe ob.bids
      have hnn : ∀ l ∈ ob.bid_limits, ∀ o ∈ l.orders, 0 ≤ o.size :=
        fun l hl => hb l (hperm.subset hl)
      obtain ⟨hf, hs⟩ := fillLimits_shrink ob.bid_limits mo hmo hnn
      refine ⟨?_, ?_, ?_⟩
      · simpa [OrderBook.fill_market_order, hside] using hs
      · intro habs
        simp at habs
      · intro _
        constructor
        · simp [OrderBook.fill_market_order, hside]
        · simpa [OrderBook.fill_market_order, hside] using hf
  · intro ob price order
    cases horder : order.bid_or_ask
    · unfold allOrders OrderBook.add_order
      rw [horder]
      simp only [List.map_append, List.flatten_append]
      have h1 := (addToSide_join_perm ob.bids (Price.new price) order).append_right
        ((ob.asks.map Limit.orders).flatten)
      simpa using h1
    · unfold allOrders OrderBook.add_order
      rw [horder]
      simp only [List.map_append, List.flatten_append]
      have h1 := (addToSide_join_perm ob.asks (Price.new price) order).append_left
        ((ob.bids.map Limit.orders).flatten)
      exact h1.trans List.perm_middle

theorem order_size_monotone_witness :
    shrinkLimit limitFifo (limitFifo.fill_order (Order.new BidOrAsk.Ask 99)).1 ∧
    shrinkOrder (Order.new BidOrAsk.Ask 99)
      (limitFifo.fill_order (Order.new BidOrAsk.Ask 99)).2 :=
  order_size_monotone.1 limitFifo (Order.new BidOrAsk.Ask 99)
    (by norm_num [Order.new])
    (by
      intro o ho
      simp only [limitFifo, List.mem_cons, List.not_mem_nil, or_false] at ho
      rcases ho with h | h <;> rw [h] <;> norm_num [Order.new])
/-! ## C4 -/

/-- A limit with every resting order's size set to 0, as left behind by a
market order that consumed the whole level. -/
def zeroOrders (l : Limit) : Limit :=
  { l with orders := l.orders.map (fun o => { o with size := 0 }) }

/-- The total resting volume on the side opposite the incoming order. -/
def oppositeVolume (ob : OrderBook) (mo : Order) : ℚ :=
  match mo.bid_or_ask with
  | BidOrAsk.Bid => (ob.asks.map Limit.total_volume).sum
  | BidOrAsk.Ask => (ob.bids.map Limit.total_volume).sum

theorem fillLoop_exhaust (os : List Order) (mo : Order)
    (h : (os.map Order.size).sum < mo.size) (hos : ∀ o ∈ os, 0 ≤ o.size) :
    fillLoop os mo = (os.map (fun o => { o with size := 0 }),
      { mo with size := mo.size - (os.map Order.size).sum }) := by
  induction os generalizing mo with
  | nil => simp [fillLoop]
  | cons lo rest ih =>
    have hlo : 0 ≤ lo.size := hos lo (List.mem_cons_self lo rest)
    have hrest : ∀ o ∈ rest, 0 ≤ o.size := fun o ho => hos o (List.mem_cons_of_mem lo ho)
    have hsum : (0 : ℚ) ≤ (rest.map Order.size).sum :=
      List.sum_nonneg (by
        intro x hx
        obtain ⟨o, ho, rfl⟩ := List.mem_map.mp hx
        exact hrest o ho)
    rw [List.map_cons, List.sum_cons] at h
    have h1 : lo.size ≤ mo.size := by linarith
    have h2 : mo.size - lo.size ≠ 0 := by
      intro hz
      rw [sub_eq_zero] at hz
      linarith
    have hrec := ih { mo with size := mo.size - lo.size } (by simp; linarith) hrest
    simp only [fillLoop, h1, if_true, Order.is_filled]
    rw [if_neg (by simpa using h2)]
    rw [hrec]
    simp [sub_sub]

theorem fill_order_exhaust (l : Limit) (mo : Order)
    (h : l.total_volume < mo.size) (hl : ∀ o ∈ l.orders, 0 ≤ o.size) :
    l.fill_order mo = (zeroOrders l, { mo with size := mo.size - l.total_volume }) := by
  unfold Limit.fill_order zeroOrders Limit.total_volume at *
  rw [fillLoop_exhaust l.orders mo h hl]

theorem total_volume_nonneg (l : Limit) (hl : ∀ o ∈ l.orders, 0 ≤ o.size) :
    0 ≤ l.total_volume := by
  unfold Limit.total_volume
  refine List.sum_nonneg ?_
  intro x hx
  obtain ⟨o, ho, rfl⟩ := List.mem_map.mp hx
  exact hl o ho

theorem fillLimits_exhaust (ls : List Limit) (mo : Order)
    (h : (ls.map Limit.total_volume).sum < mo.size)
    (hls : ∀ l ∈ ls, ∀ o ∈ l.orders, 0 ≤ o.size) :
    fillLimits ls mo = (ls.map zeroOrders,
      { mo with size := mo.size - (ls.map Limit.total_volume).sum }) := by
  induction ls generalizing mo with
  | nil => simp [fillLimits]
  | cons l rest ih =>
    have hl : ∀ o ∈ l.orders, 0 ≤ o.size := hls l (List.mem_cons_self l rest)
    have hrest : ∀ l' ∈ rest, ∀ o ∈ l'.orders, 0 ≤ o.size :=
      fun l' hl' => hls l' (List.mem_cons_of_mem l hl')
    have hvol : 0 ≤ l.total_volume := total_volume_nonneg l hl
    have hsum : (0 : ℚ) ≤ (rest.map Limit.total_volume).sum :=
      List.sum_nonneg (by
        intro x hx
        obtain ⟨l', hl', rfl⟩ := List.mem_map.mp hx
        exact total_volume_nonneg l' (hrest l' hl'))
    rw [List.map_cons, List.sum_cons] at h
    have h1 : l.total_volume < mo.size := by linarith
    have hfo := fill_order_exhaust l mo h1 hl
    have h2 : mo.size - l.total_volume ≠ 0 := by
      intro hz
      rw [sub_eq_zero] at hz
      linarith
    have hrec := ih { mo with size := mo.size - l.total_volume } (by simp; linarith) hrest
    simp only [fillLimits, hfo, Order.is_filled]
    rw [if_neg (by simpa using h2)]
    rw [hrec]
    simp [sub_sub]

/-- C4: a market order whose size strictly exceeds the total volume resting
on the opposite side terminates with exactly the excess left (so it is not
filled), zeroes every opposite resting order, leaves its own side
untouched, and adds no order and no price level anywhere: the opposite
side keeps the same (price, order-count) collection (the remainder is not
rested). -/
theorem fill_market_order_underfill (ob : OrderBook) (mo : Order)
    (hb : ∀ l ∈ ob.bids, ∀ o ∈ l.orders, 0 ≤ o.size)
    (ha : ∀ l ∈ ob.asks, ∀ o ∈ l.orders, 0 ≤ o.size)
    (h : oppositeVolume ob mo < mo.size) :
    (ob.fill_market_order mo).2 = { mo with size := mo.size - oppositeVolume ob mo } ∧
    (ob.fill_market_order mo).2.is_filled = false ∧
    (mo.bid_or_ask = BidOrAsk.Bid →
      (ob.fill_market_order mo).1.bids = ob.bids ∧
      (ob.fill_market_order mo).1.asks = ob.ask_limits.map zeroOrders ∧
      (∀ l ∈ (ob.fill_market_order mo).1.asks, ∀ o ∈ l.orders, o.size = 0) ∧
      ((ob.fill_market_order mo).1.asks.map (fun l => (l.price, l.orders.length))).Perm
        (ob.asks.map (fun l => (l.price, l.orders.length)))) ∧
    (mo.bid_or_ask = BidOrAsk.Ask →
      (ob.fill_market_order mo).1.asks = ob.asks ∧
      (ob.fill_market_order mo).1.bids = ob.bid_limits.map zeroOrders ∧
      (∀ l ∈ (ob.fill_market_order mo).1.bids, ∀ o ∈ l.orders, o.size = 0) ∧
      ((ob.fill_market_order mo).1.bids.map (fun l => (l.price, l.orders.length))).Perm
        (ob.bids.map (fun l => (l.price, l.orders.length)))) := by
  cases hside : mo.bid_or_ask
  case Bid =>
    have hperm : ob.ask_limits.Perm ob.asks := List.perm_insertionSort askLe ob.asks
    have hvols : (ob.ask_limits.map Limit.total_volume).sum
        = (ob.asks.map Limit.total_volume).sum := (hperm.map Limit.total_volume).sum_eq
    have hnn : ∀ l ∈ ob.ask_limits, ∀ o ∈ l.orders, 0 ≤ o.size :=
      fun l hl => ha l (hperm.subset hl)
    have hov : oppositeVolume ob mo = (ob.asks.map Limit.total_volume).sum := by
      unfold oppositeVolume
      rw [hside]
    have hx : (ob.ask_limits.map Limit.total_volume).sum < mo.size := by
      rw [hvols, ← hov]; exact h
    have hfe := fillLimits_exhaust ob.ask_limits mo hx hnn
    have hres : ob.fill_market_order mo =
        ({ ob with asks := ob.ask_limits.map zeroOrders },
          { size := mo.size - oppositeVolume ob mo, bid_or_ask := BidOrAsk.Bid }) := by
      unfold OrderBook.fill_market_order
      rw [hside]
      simp only [hfe, hside]
      rw [hvols, ← hov]
    rw [hres]
    refine ⟨rfl, ?_, ?_, ?_⟩
    · simp only [Order.is_filled]
      rw [decide_eq_false_iff_not]
      simp only [sub_ne_zero]
      intro hz
      rw [← hz] at h
      exact lt_irrefl _ h
    · intro _
      refine ⟨rfl, rfl, ?_, ?_⟩
      · intro l hl o ho
        obtain ⟨l0, _, rfl⟩ := List.mem_map.mp hl
        obtain ⟨o0, _, rfl⟩ := List.mem_map.mp
          (show o ∈ l0.orders.map (fun o => { o with size := 0 }) from ho)
        rfl
      · have hzp : ∀ l : Limit, ((zeroOrders l).price, (zeroOrders l).orders.length)
            = (l.price, l.orders.length) := by
          intro l
          simp [zeroOrders]
        have : (ob.ask_limits.map zeroOrders).map (fun l => (l.price, l.orders.length))
            = ob.ask_limits.map (fun l => (l.price, l.orders.length)) := by
          rw [List.map_map]
          exact List.map_congr_left (fun l _ => hzp l)
        rw [this]
        exact hperm.map _
    · intro habs
      simp at habs
  case Ask =>
    have hperm : ob.bid_limits.Perm ob.bids := List.perm_insertionSort bidLe ob.bids
    have hvols : (ob.bid_limits.map Limit.total_volume).sum
        = (ob.bids.map Limit.total_volume).sum := (hperm.map Limit.total_volume).sum_eq
    have hnn : ∀ l ∈ ob.bid_limits, ∀ o ∈ l.orders, 0 ≤ o.size :=
      fun l hl => hb l (hperm.subset hl)
    have hov : oppositeVolume ob mo = (ob.bids.map Limit.total_volume).sum := by
      unfold oppositeVolume
      rw [hside]
    have hx : (ob.bid_limits.map Limit.total_volume).sum < mo.size := by
      rw [hvols, ← hov]; exact h
    have hfe := fillLimits_exhaust ob.bid_limits mo hx hnn
    have hres : ob.fill_market_order mo =
        ({ ob with bids := ob.bid_limits.map zeroOrders },
          { size := mo.size - oppositeVolume ob mo, bid_or_ask := BidOrAsk.Ask }) := by
      unfold OrderBook.fill_market_order
      rw [hside]
      simp only [hfe, hside]
      rw [hvols, ← hov]
    rw [hres]
    refine ⟨rfl, ?_, ?_, ?_⟩
    · simp only [Order.is_filled]
      rw [decide_eq_false_iff_not]
      simp only [sub_ne_zero]
      intro hz
      rw [← hz] at h
      exact lt_irrefl _ h
    · intro habs
      simp at habs
    · intro _
      refine ⟨rfl, rfl, ?_, ?_⟩
      · intro l hl o ho
        obtain ⟨l0, _, rfl⟩ := List.mem_map.mp hl
        obtain ⟨o0, _, rfl⟩ := List.mem_map.mp
          (show o ∈ l0.orders.map (fun o => { o with size := 0 }) from ho)
        rfl
      · have hzp : ∀ l : Limit, ((zeroOrders l).price, (zeroOrders l).orders.length)
            = (l.price, l.orders.length) := by
          intro l
          simp [zeroOrders]
        have : (ob.bid_limits.map zeroOrders).map (fun l => (l.price, l.orders.length))
            = ob.bid_limits.map (fun l => (l.price, l.orders.length)) := by
          rw [List.map_map]
          exact List.map_congr_left (fun l _ => hzp l)
        rw [this]
        exact hperm.map _
/-- A one-level ask book with volume 10, against an incoming bid of 25. -/
def bookUnder : OrderBook :=
  { bids := []
    asks := [{ price := { integral := 100, fractional := 0, scalar := 100000 }
               orders := [Order.new BidOrAsk.Ask 10] }] }

theorem fill_market_order_underfill_witness :
    (bookUnder.fill_market_order (Order.new BidOrAsk.Bid 25)).2 =
      { Order.new BidOrAsk.Bid 25 with
        size := (Order.new BidOrAsk.Bid 25).size -
          oppositeVolume bookUnder (Order.new BidOrAsk.Bid 25) } ∧
    (bookUnder.fill_market_order (Order.new BidOrAsk.Bid 25)).2.is_filled = false ∧
    ((Order.new BidOrAsk.Bid 25).bid_or_ask = BidOrAsk.Bid →
      (bookUnder.fill_market_order (Order.new BidOrAsk.Bid 25)).1.bids = bookUnder.bids ∧
      (bookUnder.fill_market_order (Order.new BidOrAsk.Bid 25)).1.asks =
        bookUnder.ask_limits.map zeroOrders ∧
      (∀ l ∈ (bookUnder.fill_market_order (Order.new BidOrAsk.Bid 25)).1.asks,
        ∀ o ∈ l.orders, o.size = 0) ∧
      ((bookUnder.fill_market_order (Order.new BidOrAsk.Bid 25)).1.asks.map
          (fun l => (l.price, l.orders.length))).Perm
        (bookUnder.asks.map (fun l => (l.price, l.orders.length)))) ∧
    ((Order.new BidOrAsk.Bid 25).bid_or_ask = BidOrAsk.Ask →
      (bookUnder.fill_market_order (Order.new BidOrAsk.Bid 25)).1.asks = bookUnder.asks ∧
      (bookUnder.fill_market_order (Order.new BidOrAsk.Bid 25)).1.bids =
        bookUnder.bid_limits.map zeroOrders ∧
      (∀ l ∈ (bookUnder.fill_market_order (Order.new BidOrAsk.Bid 25)).1.bids,
        ∀ o ∈ l.orders, o.size = 0) ∧
      ((bookUnder.fill_market_order (Order.new BidOrAsk.Bid 25)).1.bids.map
          (fun l => (l.price, l.orders.length))).Perm
        (bookUnder.bids.map (fun l => (l.price, l.orders.length)))) :=
  fill_market_order_underfill bookUnder (Order.new BidOrAsk.Bid 25)
    (by intro l hl; simp [bookUnder] at hl)
    (by
      intro l hl o ho
      simp only [bookUnder, List.mem_cons, List.not_mem_nil, or_false] at hl
      rw [hl] at ho
      simp only [List.mem_cons, List.not_mem_nil, or_false] at ho
      rw [ho]
      norm_num [Order.new])
    (by norm_num [oppositeVolume, bookUnder, Order.new, Limit.total_volume])
